import Mathlib

/-!
Verification of the retrieval-and-ranking core of the bilibili-rag-bot
repository: chunking (`src/rag/document_loader.py`), re-ranking
(`src/rag/reranker.py`), the vector-store search
(`src/rag/stores/chromadb_store.py`) and the pipeline composition
(`src/rag/client.py`).

Modelling conventions:
* Python strings are modelled as `List Char`; Python `str.strip()` is
  `pyStrip`, which removes the ASCII whitespace characters (the inputs we
  reason about contain no other Unicode whitespace).
* Python `float` arithmetic is modelled by exact rationals `ℚ`; the weight
  constants 0.5 / 0.3 / 0.2 / 1.5 and the fractional size thresholds are
  the corresponding exact rationals (IEEE rounding of 0.3 can differ from
  3/10 only at exact-boundary comparisons, which the theorems below avoid).
* Python `list.sort(key=..., reverse=True)` is a stable descending sort by
  key; it is modelled by `List.insertionSort` with the relation
  "key of the right argument ≤ key of the left argument", which is the
  stable descending insertion sort.
* The `while` loop of `_chunk_by_fixed_size` may not terminate, so it is
  modelled with explicit fuel; `none` means the fuel ran out.
-/

/-- ASCII whitespace recognised by Python's `str.strip()` / `\s`. -/
def isPySpace (c : Char) : Bool :=
  c = ' ' || c = '\t' || c = '\n' || c = '\r' || c = '\x0b' || c = '\x0c'

/-- Python `str.strip()`: drop leading and trailing whitespace. -/
def pyStrip (l : List Char) : List Char :=
  ((l.dropWhile isPySpace).reverse.dropWhile isPySpace).reverse

/-- All non-whitespace characters of a string, in order. -/
def stripAllWs (l : List Char) : List Char :=
  l.filter (fun c => !isPySpace c)

/-- `content.replace("\r\n", "\n").replace("\r", "\n")` from `load_file`. -/
def normalizeNewlines : List Char → List Char
  | [] => []
  | '\r' :: '\n' :: rest => '\n' :: normalizeNewlines rest
  | '\r' :: rest => '\n' :: normalizeNewlines rest
  | c :: rest => c :: normalizeNewlines rest

/-- Split a string at every character satisfying `p`, consuming the
delimiters.  Splitting at single delimiter characters instead of delimiter
runs only introduces extra empty segments, which every caller drops. -/
def pySplitP (p : Char → Bool) : List Char → List (List Char)
  | [] => [[]]
  | c :: cs =>
      match pySplitP p cs, p c with
      | r, true => [] :: r
      | [], false => [[c]]
      | s :: rest, false => (c :: s) :: rest

/-- Sentence delimiters of `_chunk_by_sentences`: the regex `[。！？；\n]+`. -/
def isSentSep (c : Char) : Bool :=
  c = '。' || c = '！' || c = '？' || c = '；' || c = '\n'

/-- The `sentences` list of `_chunk_by_sentences`: split on the delimiter
pattern, strip each fragment, drop the empty ones. -/
def sentencesOf (content : List Char) : List (List Char) :=
  ((pySplitP isSentSep content).map pyStrip).filter (fun s => s ≠ [])

/-- The sentence-packing loop of `_chunk_by_sentences`.  `cur` is the
`current_chunk` accumulator (a chunk is the concatenation of `current_chunk`,
Python joins with the empty string), `size`
is `current_size`. -/
def packGo (target : Nat) : List (List Char) → List (List Char) → Nat → List (List Char)
  | [], cur, _ => if cur ≠ [] then [cur.flatten] else []
  | s :: rest, cur, size =>
      if s.length > target then
        (if cur ≠ [] then [cur.flatten] else []) ++ s :: packGo target rest [] 0
      else if size + s.length > target ∧ cur ≠ [] then
        cur.flatten :: packGo target rest [s] s.length
      else
        packGo target rest (cur ++ [s]) (size + s.length)

/-- `DocumentLoader._chunk_by_sentences`. -/
def chunkBySentences (content : List Char) (target : Nat) : List (List Char) :=
  packGo target (sentencesOf content) [] 0

/- ### Fixed-size chunker (`_chunk_by_fixed_size`) -/

/-- Python slice index normalisation: a negative index counts from the end,
indexes are clamped to the string length. -/
def pyIdx (len : Nat) (i : Int) : Nat :=
  if i < 0 then ((len : Int) + i).toNat else min i.toNat len

/-- Python `l[a:b]` (step 1). -/
def pySlice (l : List Char) (a b : Int) : List Char :=
  (l.take (pyIdx l.length b)).drop (pyIdx l.length a)

/-- `re.sub(r'\s+', ' ', s)`: every maximal whitespace run becomes one
space.  The Boolean records whether the previous character was part of a
whitespace run. -/
def collapseWsGo : Bool → List Char → List Char
  | _, [] => []
  | prevSpace, c :: cs =>
      if isPySpace c then
        if prevSpace then collapseWsGo true cs else ' ' :: collapseWsGo true cs
      else c :: collapseWsGo false cs

def collapseWs (l : List Char) : List Char :=
  collapseWsGo false l

/-- `start = end - overlap if overlap > 0 else end` with `end = start +
chunk_size`. -/
def nextStart (csize overlap : Nat) (start : Int) : Int :=
  if overlap > 0 then start + csize - overlap else start + csize

/-- The `while start < content_len` loop of `_chunk_by_fixed_size`, with
explicit fuel; `none` means the fuel ran out before the loop finished. -/
def fixedGo (content : List Char) (csize overlap : Nat) : Nat → Int → Option (List (List Char))
  | 0, _ => none
  | fuel + 1, start =>
      if start < (content.length : Int) then
        let chunk := pyStrip (pySlice content start (start + csize))
        (fixedGo content csize overlap fuel (nextStart csize overlap start)).map
          (fun chunks => if chunk ≠ [] then chunk :: chunks else chunks)
      else
        some []

/-- `DocumentLoader._chunk_by_fixed_size`.  The fuel `length + 1` is
sufficient whenever the loop terminates at all (stride ≥ 1). -/
def chunkByFixedSize (content : List Char) (csize overlap : Nat) : Option (List (List Char)) :=
  let c := collapseWs (pyStrip content)
  fixedGo c csize overlap (c.length + 1) 0

/- ### Smart chunker (`_chunk_smart`) -/

/-- `'"' in line or '"' in line or '「' in line` (the first two literals in
the source are both the ASCII double quote). -/
def containsQuote (line : List Char) : Bool :=
  line.contains '"' || line.contains '「'

/-- The `lines` list of `_chunk_smart`: split on `\n`, strip, drop empty. -/
def linesOf (content : List Char) : List (List Char) :=
  ((pySplitP (fun c => c = '\n') content).map pyStrip).filter (fun s => s ≠ [])

/-- `"\n".join(current_chunk)`. -/
def joinNL : List (List Char) → List Char
  | [] => []
  | [l] => l
  | l :: next :: rest => l ++ '\n' :: joinNL (next :: rest)

/-- The per-line loop of `_chunk_smart`.  The Python float comparisons
`line_len > target * 1.5`, `current_size > target * 0.5` and
`current_size > target * 0.3` are the exact integer comparisons
`2*len > 3*target`, `2*size > target` and `10*size > 3*target`. -/
def smartGo (target : Nat) : List (List Char) → List (List Char) → Nat → List (List Char)
  | [], cur, _ => if cur ≠ [] then [joinNL cur] else []
  | line :: rest, cur, size =>
      if 2 * line.length > 3 * target then
        (if cur ≠ [] then [joinNL cur] else []) ++ chunkBySentences line target
          ++ smartGo target rest [] 0
      else if size + line.length > target ∧ cur ≠ [] then
        if line.length < 100 ∧ containsQuote line ∧ 2 * size > target then
          joinNL cur :: smartGo target rest [line] line.length
        else if 10 * size > 3 * target then
          joinNL cur :: smartGo target rest [line] line.length
        else
          smartGo target rest (cur ++ [line]) (size + line.length)
      else
        smartGo target rest (cur ++ [line]) (size + line.length)

/-- `DocumentLoader._chunk_smart`. -/
def chunkSmart (content : List Char) (target : Nat) : List (List Char) :=
  smartGo target (linesOf content) [] 0

/- ### Strategy dispatch of `DocumentLoader.load_file` -/

/-- The strategy dispatch of `load_file` (after reading the file and
normalizing line endings).  The payload is `Option`-valued because the
fixed-size loop may diverge: `some` is the returned chunk list, `none`
means the loop does not finish within `length + 1` iterations (for
`fixed_size` this fuel is sufficient whenever the loop terminates, since
the stride is then at least 1). -/
def chunkDocument (strategy : String) (content : List Char) (csize overlap : Nat) :
    Except String (Option (List (List Char))) :=
  let c := normalizeNewlines content
  if strategy = "sentences" then .ok (some (chunkBySentences c csize))
  else if strategy = "fixed_size" then .ok (chunkByFixedSize c csize overlap)
  else if strategy = "smart" then .ok (some (chunkSmart c csize))
  else .error ("Unknown strategy: " ++ strategy)

/- ### Reranker (`reranker.py`) -/

/-- `SearchResult` of `types.py`; `rerank_score` is the key the reranker
adds to its copies (`none` when absent). -/
structure SearchResult where
  docId : String
  content : List Char
  metadata : Option String
  score : ℚ
  rerankScore : Option ℚ
deriving DecidableEq

/-- `Reranker._keyword_overlap_score`: only the ASCII space is removed
(`query.replace(" ", "")`), then character-set overlap normalised by the
query set. -/
def keywordOverlapScore (query content : List Char) : ℚ :=
  if (query.filter (fun c => c ≠ ' ')).toFinset = ∅ then 0
  else
    min ((((query.filter (fun c => c ≠ ' ')).toFinset
        ∩ (content.filter (fun c => c ≠ ' ')).toFinset).card : ℚ)
      / (query.filter (fun c => c ≠ ' ')).toFinset.card) 1

/-- `Reranker._length_score`. -/
def lengthScore (content : List Char) : ℚ :=
  let n := content.length
  if 200 ≤ n ∧ n ≤ 500 then 1
  else if n < 200 then (n : ℚ) / 200
  else max (1/2) (1 - ((n : ℚ) - 500) / 1000)

/-- `Reranker._calculate_relevance_score`. -/
def relevanceScore (query : List Char) (r : SearchResult) : ℚ :=
  r.score * (1/2) + keywordOverlapScore query r.content * (3/10)
    + lengthScore r.content * (1/5)

/-- `result_copy = result.copy(); result_copy["rerank_score"] = score`. -/
def scoreResult (query : List Char) (r : SearchResult) : SearchResult :=
  { r with rerankScore := some (relevanceScore query r) }

/-- The sort key `x["rerank_score"]` (every sorted element has one). -/
def rerankKey (r : SearchResult) : ℚ :=
  r.rerankScore.getD 0

/-- Stable descending order: `sort(key=..., reverse=True)` places `a`
before `b` exactly when `b`'s key is not above `a`'s. -/
def rerankRel (a b : SearchResult) : Prop :=
  rerankKey b ≤ rerankKey a

instance : DecidableRel rerankRel :=
  fun a b => inferInstanceAs (Decidable (rerankKey b ≤ rerankKey a))

instance : IsTotal SearchResult rerankRel :=
  ⟨fun a b => le_total (rerankKey b) (rerankKey a)⟩

instance : IsTrans SearchResult rerankRel :=
  ⟨fun _ _ _ hab hbc => le_trans hbc hab⟩

/-- `Reranker.rerank`: score every candidate on a copy, stable sort by
`rerank_score` descending, truncate to `top_k`. -/
def rerank (query : List Char) (results : List SearchResult) (topK : Nat) :
    List SearchResult :=
  (List.insertionSort rerankRel (results.map (scoreResult query))).take topK

/- ### Spec-side score definitions (for the refinement claim C2) -/

/-- The claim's score formula taken literally: keyword overlap counts the
distinct characters left after removing *whitespace* (the spec's wording),
clamped to `[0, 1]`, and `0` for a whitespace-only query. -/
def specKeywordOverlapWs (query content : List Char) : ℚ :=
  if (query.filter (fun c => !isPySpace c)).toFinset = ∅ then 0
  else
    max 0 (min ((((query.filter (fun c => !isPySpace c)).toFinset
        ∩ (content.filter (fun c => !isPySpace c)).toFinset).card : ℚ)
      / (query.filter (fun c => !isPySpace c)).toFinset.card) 1)

/-- The claim's `length_score`, taken literally. -/
def specLengthScore (content : List Char) : ℚ :=
  let n := content.length
  if 200 ≤ n ∧ n ≤ 500 then 1
  else if n < 200 then (n : ℚ) / 200
  else max (1/2) (1 - ((n : ℚ) - 500) / 1000)

/-- The claim's blended score with the whitespace-removal reading. -/
def specRerankScoreWs (query : List Char) (r : SearchResult) : ℚ :=
  (1/2) * r.score + (3/10) * specKeywordOverlapWs query r.content
    + (1/5) * specLengthScore r.content

/-- The amended claim's keyword overlap: only the ASCII space character is
removed before forming the character sets, as the code does. -/
def specKeywordOverlapSpace (query content : List Char) : ℚ :=
  if (query.filter (fun c => c ≠ ' ')).toFinset = ∅ then 0
  else
    max 0 (min ((((query.filter (fun c => c ≠ ' ')).toFinset
        ∩ (content.filter (fun c => c ≠ ' ')).toFinset).card : ℚ)
      / (query.filter (fun c => c ≠ ' ')).toFinset.card) 1)

/-- The amended claim's blended score. -/
def specRerankScoreSpace (query : List Char) (r : SearchResult) : ℚ :=
  (1/2) * r.score + (3/10) * specKeywordOverlapSpace query r.content
    + (1/5) * specLengthScore r.content

/- ### Vector store search (`ChromaDBStore.search`) -/

/-- One raw row of the backing index's answer: id, document text, optional
metadata and cosine distance. -/
structure IndexRow where
  rowId : String
  text : List Char
  metadata : Option String
  distance : ℚ
deriving DecidableEq

/-- The result record built for a row, with `score = 1 - distance`. -/
def mkResult (row : IndexRow) : SearchResult :=
  { docId := row.rowId
    content := row.text
    metadata := row.metadata
    score := 1 - row.distance
    rerankScore := none }

/-- The result-formatting loop of `ChromaDBStore.search`: convert distance
to similarity and drop (`continue`) any candidate below the threshold. -/
def chromaSearch : List IndexRow → Option ℚ → List SearchResult
  | [], _ => []
  | row :: rest, th =>
      match th with
      | some t =>
          if 1 - row.distance < t then chromaSearch rest th
          else mkResult row :: chromaSearch rest th
      | none => mkResult row :: chromaSearch rest th

/- ### Pipeline (`RAGClient`) -/

/-- Observable external calls made by the pipeline's read path. -/
inductive CallEvent where
  | encode (query : List Char)
  | indexQuery (k : Nat)
deriving DecidableEq

/-- `RAGClient.search`, parametrised by the store's answer `retrieve k`
and by the re-ranking flag, together with the trace of external calls it
makes.  The query validation is `if not query or not query.strip()`. -/
def ragSearchTr (retrieve : Nat → List SearchResult) (rerankOn : Bool)
    (query : List Char) (limit : Nat) :
    Except String (List SearchResult) × List CallEvent :=
  if pyStrip query = [] then
    (.error "Query cannot be empty", [])
  else
    let k := if rerankOn then limit * 2 else limit
    let results := retrieve k
    let final := if rerankOn ∧ results ≠ [] then rerank query results limit else results
    (.ok (final.take limit), [.encode query, .indexQuery k])

/-- The value returned by `RAGClient.search`. -/
def ragSearch (retrieve : Nat → List SearchResult) (rerankOn : Bool)
    (query : List Char) (limit : Nat) : Except String (List SearchResult) :=
  (ragSearchTr retrieve rerankOn query limit).1

/- ### Ingestion (`RAGClient.add_document` / `add_documents`) -/

/-- Observable external calls made by the write path. -/
inductive IngestEvent where
  | encode
  | storeAdd
deriving DecidableEq

/-- `RAGClient.add_document`: rejects empty/whitespace content before any
embedding or store call. -/
def addDocument (content : List Char) :
    Except String Unit × List IngestEvent :=
  if pyStrip content = [] then
    (.error "Document content cannot be empty", [])
  else
    (.ok (), [.encode, .storeAdd])

/-- `RAGClient.add_documents`: an empty batch returns immediately; any
non-empty batch is embedded and stored with no per-item content check. -/
def addDocuments (documents : List (List Char)) :
    Except String Unit × List IngestEvent :=
  if documents = [] then
    (.ok (), [])
  else
    (.ok (), [.encode, .storeAdd])

/- ### Round-trip lemmas for the sentence strategy -/

theorem pySplitP_join (p : Char → Bool) (l : List Char) :
    (pySplitP p l).flatten = l.filter (fun c => !p c) := by
  induction l with
  | nil => simp [pySplitP]
  | cons c cs ih =>
      by_cases hc : p c
      · simp only [pySplitP, hc]
        simpa [hc] using ih
      · simp only [pySplitP]
        rcases hsplit : pySplitP p cs with _ | ⟨s, rest⟩
        · rw [hsplit] at ih
          simp only [List.flatten_nil] at ih
          simp [hc, ← ih]
        · rw [hsplit] at ih
          simp only [List.flatten_cons] at ih ⊢
          simp [hc, ← ih]

theorem stripAllWs_append (a b : List Char) :
    stripAllWs (a ++ b) = stripAllWs a ++ stripAllWs b := by
  simp [stripAllWs]

theorem stripAllWs_dropWhile (l : List Char) :
    stripAllWs (l.dropWhile isPySpace) = stripAllWs l := by
  induction l with
  | nil => rfl
  | cons c cs ih =>
      by_cases hc : isPySpace c
      · simp [List.dropWhile, hc, stripAllWs, List.filter]
        simpa [stripAllWs] using ih
      · simp [List.dropWhile, hc]

theorem stripAllWs_reverse (l : List Char) :
    stripAllWs l.reverse = (stripAllWs l).reverse := by
  simp [stripAllWs]

theorem stripAllWs_pyStrip (l : List Char) :
    stripAllWs (pyStrip l) = stripAllWs l := by
  unfold pyStrip
  rw [stripAllWs_reverse, stripAllWs_dropWhile, stripAllWs_reverse,
    List.reverse_reverse, stripAllWs_dropWhile]

/-- Stripping fragments and dropping the empty ones does not change the
non-whitespace content of the concatenation. -/
theorem stripAllWs_join_sentences (segs : List (List Char)) :
    stripAllWs ((segs.map pyStrip).filter (fun s => s ≠ [])).flatten
      = stripAllWs segs.flatten := by
  induction segs with
  | nil => rfl
  | cons s rest ih =>
      by_cases hs : pyStrip s = []
      · have hcontent : stripAllWs s = [] := by
          have h := stripAllWs_pyStrip s
          rw [hs] at h
          exact h.symm
        simpa [hs, List.filter_cons, stripAllWs_append, hcontent] using ih
      · simp only [List.map_cons, List.filter_cons]
        rw [if_pos (by simp [hs])]
        simpa [stripAllWs_append, stripAllWs_pyStrip] using ih

/-- The packing loop never drops or duplicates a sentence: the
concatenation of its chunks is the accumulator followed by the remaining
sentences. -/
theorem packGo_join (target : Nat) (ss : List (List Char))
    (cur : List (List Char)) (size : Nat) :
    (packGo target ss cur size).flatten = cur.flatten ++ ss.flatten := by
  induction ss generalizing cur size with
  | nil =>
      by_cases hcur : cur = []
      · simp [packGo, hcur]
      · simp [packGo, hcur]
  | cons s rest ih =>
      by_cases hlong : s.length > target
      · by_cases hcur : cur = []
        · simp [packGo, hlong, hcur, ih]
        · simp [packGo, hlong, hcur, ih]
      · by_cases hover : size + s.length > target ∧ cur ≠ []
        · simp [packGo, hlong, hover, ih]
        · simp [packGo, hlong, hover, ih]

/-- Round-trip identity actually satisfied by the sentence strategy: the
chunk concatenation retains exactly the characters that are neither
whitespace nor sentence delimiters.  The delimiters `。！？；` are
consumed by the split and never re-emitted. -/
theorem chunkBySentences_roundtrip (content : List Char) (target : Nat) :
    stripAllWs (chunkBySentences content target).flatten
      = content.filter (fun c => !isPySpace c && !isSentSep c) := by
  unfold chunkBySentences
  rw [packGo_join]
  simp only [List.flatten_nil, List.nil_append]
  unfold sentencesOf
  rw [stripAllWs_join_sentences, pySplitP_join]
  simp only [stripAllWs, List.filter_filter]

theorem fixedGo_isSome (content : List Char) (csize overlap : Nat)
    (h : overlap < csize) :
    ∀ (n : Nat) (start : Int), 0 ≤ start →
      (content.length : Int) ≤ start + n * ((csize : Int) - overlap) →
      (fixedGo content csize overlap (n + 1) start).isSome := by
  intro n
  induction n with
  | zero =>
      intro start _ hlen
      simp only [Nat.cast_zero, zero_mul, add_zero] at hlen
      rw [fixedGo, if_neg (by omega)]
      rfl
  | succ n ih =>
      intro start hstart hlen
      by_cases hguard : start < (content.length : Int)
      · rw [fixedGo, if_pos hguard]
        have hstep : nextStart csize overlap start = start + ((csize : Int) - overlap) := by
          unfold nextStart
          by_cases hov : overlap > 0
          · rw [if_pos hov]; ring
          · have : overlap = 0 := by omega
            rw [if_neg hov, this]
            push_cast
            ring
        have hrec := ih (nextStart csize overlap start)
          (by rw [hstep]; have : (1 : Int) ≤ (csize : Int) - overlap := by
                have := h; omega
              omega)
          (by rw [hstep]
              have hc : ((n : Int) + 1) * ((csize : Int) - overlap)
                  = ((csize : Int) - overlap) + n * ((csize : Int) - overlap) := by ring
              push_cast at hlen ⊢
              omega)
        obtain ⟨v, hv⟩ := Option.isSome_iff_exists.mp hrec
        rw [hv]
        rfl
      · rw [fixedGo, if_neg hguard]
        rfl

theorem fixedGo_none (content : List Char) (csize overlap : Nat)
    (h : csize ≤ overlap) (hlen : csize < content.length) :
    ∀ (fuel : Nat) (start : Int), start ≤ 0 →
      fixedGo content csize overlap fuel start = none := by
  intro fuel
  induction fuel with
  | zero => intro start _; rfl
  | succ fuel ih =>
      intro start hstart
      have hguard : start < (content.length : Int) := by
        have : (0 : Int) < content.length := by
          have : 0 < content.length := by omega
          exact_mod_cast this
        omega
      rw [fixedGo, if_pos hguard]
      have hnext : nextStart csize overlap start ≤ 0 := by
        unfold nextStart
        by_cases hov : overlap > 0
        · rw [if_pos hov]
          have : (csize : Int) ≤ overlap := by exact_mod_cast h
          omega
        · have hz : overlap = 0 := by omega
          have hcz : csize = 0 := by omega
          rw [if_neg hov, hcz]
          simpa using hstart
      rw [ih (nextStart csize overlap start) hnext]
      rfl

theorem stripAllWs_collapseWsGo :
    ∀ (b : Bool) (l : List Char), stripAllWs (collapseWsGo b l) = stripAllWs l := by
  intro b l
  induction l generalizing b with
  | nil => rfl
  | cons c cs ih =>
      by_cases hc : isPySpace c
      · have hcs : stripAllWs (c :: cs) = stripAllWs cs := by
          simp [stripAllWs, List.filter_cons, hc]
        cases b with
        | true =>
            have h1 : collapseWsGo true (c :: cs) = collapseWsGo true cs := by
              simp [collapseWsGo, hc]
            rw [h1, ih true, hcs]
        | false =>
            have h1 : collapseWsGo false (c :: cs) = ' ' :: collapseWsGo true cs := by
              simp [collapseWsGo, hc]
            have h2 : stripAllWs (' ' :: collapseWsGo true cs)
                = stripAllWs (collapseWsGo true cs) := by
              simp [stripAllWs, List.filter_cons, isPySpace]
            rw [h1, h2, ih true, hcs]
      · have h1 : collapseWsGo b (c :: cs) = c :: collapseWsGo false cs := by
          simp [collapseWsGo, hc]
        have h2 := ih false
        simp only [stripAllWs] at h2 ⊢
        rw [h1]
        simp [List.filter_cons, hc, h2]

theorem stripAllWs_collapseWs (l : List Char) :
    stripAllWs (collapseWs l) = stripAllWs l :=
  stripAllWs_collapseWsGo false l

theorem take_drop_cover {α : Type} (l : List α) (start csize : Nat)
    (h : start < l.length) :
    (l.take (min (start + csize) l.length)).drop start ++ l.drop (start + csize)
      = l.drop start := by
  by_cases hle : start + csize ≤ l.length
  · rw [min_eq_left hle]
    conv_rhs => rw [← List.take_append_drop (start + csize) l]
    rw [List.drop_append_eq_append_drop]
    congr 1
    rw [List.length_take, min_eq_left hle]
    have hz : start - (start + csize) = 0 := by omega
    rw [hz, List.drop_zero]
  · have hmin : min (start + csize) l.length = l.length := min_eq_right (by omega)
    rw [hmin, List.take_length,
      List.drop_eq_nil_of_le (show l.length ≤ start + csize by omega), List.append_nil]

theorem stripAllWs_slice_split (content : List Char) (start csize : Nat)
    (h : start < content.length) :
    stripAllWs (pySlice content (start : Int) ((start : Int) + csize))
      ++ stripAllWs (content.drop (start + csize))
      = stripAllWs (content.drop start) := by
  have hcast : (start : Int) + csize = ((start + csize : Nat) : Int) := by
    push_cast
    ring
  rw [hcast]
  unfold pySlice pyIdx
  rw [if_neg (by exact not_lt.mpr (Int.natCast_nonneg _)),
    if_neg (by exact not_lt.mpr (Int.natCast_nonneg _))]
  rw [Int.toNat_natCast, Int.toNat_natCast, min_eq_left (le_of_lt h)]
  rw [← stripAllWs_append]
  congr 1
  exact take_drop_cover content start csize h

/-- With `overlap = 0`, no character of the (collapsed) content is dropped
or duplicated by the fixed-size loop. -/
theorem fixedGo_strip_flatten (content : List Char) (csize : Nat) :
    ∀ (fuel : Nat) (start : Nat) (chunks : List (List Char)),
      fixedGo content csize 0 fuel (start : Int) = some chunks →
      stripAllWs chunks.flatten = stripAllWs (content.drop start) := by
  intro fuel
  induction fuel with
  | zero =>
      intro start chunks h
      exact absurd h (by simp [fixedGo])
  | succ fuel ih =>
      intro start chunks h
      by_cases hguard : (start : Int) < (content.length : Int)
      · have hlt : start < content.length := by exact_mod_cast hguard
        rw [fixedGo, if_pos hguard] at h
        have hnext : nextStart csize 0 (start : Int) = ((start + csize : Nat) : Int) := by
          unfold nextStart
          rw [if_neg (by omega)]
          push_cast
          ring
        rw [hnext] at h
        rcases hrec : fixedGo content csize 0 fuel ((start + csize : Nat) : Int)
          with _ | chunks'
        · rw [hrec] at h
          exact absurd h (by simp)
        · rw [hrec] at h
          simp only [Option.map_some'] at h
          have hchunks := (Option.some.inj h).symm
          have ihrec := ih (start + csize) chunks' hrec
          by_cases hch : pyStrip (pySlice content (start : Int) ((start : Int) + csize)) ≠ []
          · rw [if_pos hch] at hchunks
            rw [hchunks]
            simp only [List.flatten_cons, stripAllWs_append, stripAllWs_pyStrip, ihrec]
            exact stripAllWs_slice_split content start csize hlt
          · rw [if_neg hch] at hchunks
            rw [hchunks, ihrec]
            have hempty : stripAllWs (pySlice content (start : Int) ((start : Int) + csize)) = [] := by
              have hs := stripAllWs_pyStrip (pySlice content (start : Int) ((start : Int) + csize))
              rw [not_not.mp hch] at hs
              exact hs.symm
            have := stripAllWs_slice_split content start csize hlt
            rw [hempty, List.nil_append] at this
            exact this
      · rw [fixedGo, if_neg hguard] at h
        have hge : content.length ≤ start := by
          have : ¬ ((start : Int) < (content.length : Int)) := hguard
          omega
        have hchunks := (Option.some.inj h).symm
        rw [hchunks]
        simp [List.drop_eq_nil_of_le hge, stripAllWs]

theorem nextStart_no_advance (csize overlap : Nat) (h : csize ≤ overlap) :
    ∀ start : Int, nextStart csize overlap start ≤ start := by
  intro start
  unfold nextStart
  by_cases hov : overlap > 0
  · rw [if_pos hov]
    have : (csize : Int) ≤ overlap := by exact_mod_cast h
    omega
  · have hz : overlap = 0 := by omega
    have hcz : csize = 0 := by omega
    rw [if_neg hov, hcz]
    simp

theorem stripAllWs_joinNL : ∀ cur : List (List Char),
    stripAllWs (joinNL cur) = stripAllWs cur.flatten := by
  intro cur
  induction cur with
  | nil => rfl
  | cons l rest ih =>
      cases rest with
      | nil => simp [joinNL]
      | cons next rest2 =>
          have hnl : stripAllWs ('\n' :: joinNL (next :: rest2))
              = stripAllWs (joinNL (next :: rest2)) := by
            simp [stripAllWs, List.filter_cons, isPySpace]
          simp only [joinNL, List.flatten_cons, stripAllWs_append, hnl, ih]

/-- When no line is over the long-line limit, the smart loop keeps every
line (and hence every non-whitespace character) exactly once. -/
theorem smartGo_strip_flatten (target : Nat) :
    ∀ (lines : List (List Char)),
      (∀ l ∈ lines, 2 * l.length ≤ 3 * target) →
      ∀ (cur : List (List Char)) (size : Nat),
        stripAllWs (smartGo target lines cur size).flatten
          = stripAllWs (joinNL cur) ++ stripAllWs lines.flatten := by
  intro lines
  induction lines with
  | nil =>
      intro _ cur size
      by_cases hcur : cur = []
      · simp [smartGo, hcur, joinNL, stripAllWs]
      · simp [smartGo, hcur, stripAllWs]
  | cons line rest ih =>
      intro hshort cur size
      have hline : ¬ 2 * line.length > 3 * target := by
        have := hshort line (by simp)
        omega
      have hrest : ∀ l ∈ rest, 2 * l.length ≤ 3 * target := by
        intro l hl
        exact hshort l (by simp [hl])
      have happend : stripAllWs (smartGo target rest (cur ++ [line]) (size + line.length)).flatten
          = stripAllWs (joinNL cur) ++ stripAllWs (line :: rest).flatten := by
        rw [ih hrest]
        rw [stripAllWs_joinNL, stripAllWs_joinNL]
        simp [List.flatten_cons, stripAllWs_append, List.append_assoc]
      have hflush : ∀ after : List (List Char), after = smartGo target rest [line] line.length →
          stripAllWs (joinNL cur :: after).flatten
            = stripAllWs (joinNL cur) ++ stripAllWs (line :: rest).flatten := by
        intro after hafter
        rw [hafter]
        simp only [List.flatten_cons, stripAllWs_append]
        rw [ih hrest [line] line.length]
        have h1 : joinNL [line] = line := rfl
        simp [h1, List.flatten_cons, stripAllWs_append, List.append_assoc]
      rw [smartGo, if_neg hline]
      by_cases hover : size + line.length > target ∧ cur ≠ []
      · rw [if_pos hover]
        by_cases hd : line.length < 100 ∧ containsQuote line = true ∧ 2 * size > target
        · rw [if_pos hd]
          exact hflush _ rfl
        · rw [if_neg hd]
          by_cases h3 : 10 * size > 3 * target
          · rw [if_pos h3]
            exact hflush _ rfl
          · rw [if_neg h3]
            exact happend
      · rw [if_neg hover]
        exact happend

theorem chunkSmart_roundtrip (content : List Char) (target : Nat)
    (hshort : ∀ l ∈ linesOf content, 2 * l.length ≤ 3 * target) :
    stripAllWs (chunkSmart content target).flatten = stripAllWs content := by
  unfold chunkSmart
  rw [smartGo_strip_flatten target (linesOf content) hshort [] 0]
  have h0 : stripAllWs (joinNL []) = [] := rfl
  rw [h0, List.nil_append]
  unfold linesOf
  rw [stripAllWs_join_sentences, pySplitP_join]
  simp only [stripAllWs, List.filter_filter]
  apply List.filter_congr
  intro c _
  by_cases h : c = '\n'
  · subst h
    simp [isPySpace]
  · simp [h]

/- ### Stability of the rerank sort -/

theorem filter_orderedInsert_key (s : ℚ) (a : SearchResult) :
    ∀ l : List SearchResult,
      (List.orderedInsert rerankRel a l).filter (fun r => decide (rerankKey r = s))
        = if rerankKey a = s
          then a :: l.filter (fun r => decide (rerankKey r = s))
          else l.filter (fun r => decide (rerankKey r = s)) := by
  intro l
  induction l with
  | nil =>
      by_cases h : rerankKey a = s <;> simp [List.orderedInsert, h]
  | cons b l ih =>
      by_cases hr : rerankRel a b
      · rw [List.orderedInsert, if_pos hr]
        by_cases h : rerankKey a = s <;> simp [List.filter_cons, h]
      · rw [List.orderedInsert, if_neg hr]
        have hb : rerankKey a < rerankKey b := not_le.mp hr
        by_cases h : rerankKey a = s
        · have hbs : ¬ rerankKey b = s := by
            rw [← h]
            exact ne_of_gt hb
          simp [List.filter_cons, hbs, ih, h]
        · simp [List.filter_cons, ih, h]

theorem filter_insertionSort_key (s : ℚ) (l : List SearchResult) :
    (List.insertionSort rerankRel l).filter (fun r => decide (rerankKey r = s))
      = l.filter (fun r => decide (rerankKey r = s)) := by
  induction l with
  | nil => rfl
  | cons a l ih =>
      rw [List.insertionSort, filter_orderedInsert_key]
      by_cases h : rerankKey a = s <;> simp [List.filter_cons, h, ih]

theorem rerank_length_le (query : List Char) (results : List SearchResult)
    (topK : Nat) : (rerank query results topK).length ≤ topK := by
  unfold rerank
  rw [List.length_take]
  exact min_le_left _ _

/-- C8: `rerank` sorts the scored copies in descending `rerank_score`
order, the sort is stable (for each score value, the output candidates
with that score are an in-order initial segment of the scored input
candidates with that score), the output is truncated to `top_k`, a
candidate list shorter than `top_k` is returned in full (reranked), and
every output element is an unmutated copy of an input candidate with only
`rerank_score` added. -/
theorem claim_C8 (query : List Char) (results : List SearchResult) (topK : Nat) :
    List.Pairwise (fun a b => rerankKey b ≤ rerankKey a) (rerank query results topK)
    ∧ (rerank query results topK).length = min topK results.length
    ∧ (∀ s : ℚ, ∃ tail,
        (results.map (scoreResult query)).filter (fun r => decide (rerankKey r = s))
          = (rerank query results topK).filter (fun r => decide (rerankKey r = s)) ++ tail)
    ∧ (results.length ≤ topK →
        (rerank query results topK).Perm (results.map (scoreResult query)))
    ∧ (∀ r ∈ rerank query results topK, ∃ r₀ ∈ results, r = scoreResult query r₀) := by
  have hsorted : List.Sorted rerankRel
      (List.insertionSort rerankRel (results.map (scoreResult query))) :=
    List.sorted_insertionSort rerankRel (results.map (scoreResult query))
  have hperm : (List.insertionSort rerankRel (results.map (scoreResult query))).Perm
      (results.map (scoreResult query)) :=
    List.perm_insertionSort rerankRel (results.map (scoreResult query))
  have hlen : (List.insertionSort rerankRel (results.map (scoreResult query))).length
      = results.length := by
    rw [hperm.length_eq, List.length_map]
  refine ⟨?_, ?_, ?_, ?_, ?_⟩
  · exact List.Pairwise.sublist (List.take_sublist _ _) hsorted
  · unfold rerank
    rw [List.length_take, hlen]
  · intro s
    refine ⟨(List.drop topK
      (List.insertionSort rerankRel (results.map (scoreResult query)))).filter
        (fun r => decide (rerankKey r = s)), ?_⟩
    rw [← filter_insertionSort_key s (results.map (scoreResult query))]
    conv_lhs => rw [← List.take_append_drop topK
      (List.insertionSort rerankRel (results.map (scoreResult query)))]
    rw [List.filter_append]
    rfl
  · intro hle
    unfold rerank
    rw [List.take_of_length_le (by rw [hlen]; exact hle)]
    exact hperm
  · intro r hr
    have hr2 : r ∈ List.insertionSort rerankRel (results.map (scoreResult query)) :=
      List.mem_of_mem_take hr
    have hr3 : r ∈ results.map (scoreResult query) := hperm.mem_iff.mp hr2
    obtain ⟨r₀, hr₀, hmap⟩ := List.mem_map.mp hr3
    exact ⟨r₀, hr₀, hmap.symm⟩

set_option maxRecDepth 4000 in
/-- C8 witness at a concrete query and candidate pair. -/
theorem claim_C8_witness :
    List.Pairwise (fun a b => rerankKey b ≤ rerankKey a)
      (rerank ['q'] [⟨"a", ['q'], none, 0, none⟩, ⟨"b", ['z'], none, 0, none⟩] 3)
    ∧ (rerank ['q'] [⟨"a", ['q'], none, 0, none⟩, ⟨"b", ['z'], none, 0, none⟩] 3).Perm
        ([⟨"a", ['q'], none, 0, none⟩, ⟨"b", ['z'], none, 0, none⟩].map (scoreResult ['q']))
    ∧ (∃ tail,
        ([⟨"a", ['q'], none, 0, none⟩, ⟨"b", ['z'], none, 0, none⟩].map
            (scoreResult ['q'])).filter (fun r => decide (rerankKey r = 301/1000))
          = (rerank ['q'] [⟨"a", ['q'], none, 0, none⟩, ⟨"b", ['z'], none, 0, none⟩] 3).filter
              (fun r => decide (rerankKey r = 301/1000)) ++ tail)
    ∧ (∃ r₀ ∈ [(⟨"a", ['q'], none, 0, none⟩ : SearchResult), ⟨"b", ['z'], none, 0, none⟩],
        scoreResult ['q'] ⟨"a", ['q'], none, 0, none⟩ = scoreResult ['q'] r₀) := by
  have h := claim_C8 ['q'] [⟨"a", ['q'], none, 0, none⟩, ⟨"b", ['z'], none, 0, none⟩] 3
  exact ⟨h.1, h.2.2.2.1 (by decide), h.2.2.1 (301/1000),
    h.2.2.2.2 (scoreResult ['q'] ⟨"a", ['q'], none, 0, none⟩) (by with_unfolding_all decide)⟩

set_option maxRecDepth 4000 in
/-- C2 counterexample: for the tab-only query `"\t"` (whitespace but not a
space) and content `"\t"`, the code's score is `301/1000` while the
claim's formula — keyword overlap zero because the query has no
characters left after *whitespace* removal — gives `1/1000`; the code
removes only ASCII spaces (`query.replace(" ", "")`), so the tab still
counts as a distinct character and overlaps. -/
theorem claim_C2_counterexample :
    relevanceScore ['\t'] ⟨"d", ['\t'], none, 0, none⟩ = 301/1000
    ∧ specRerankScoreWs ['\t'] ⟨"d", ['\t'], none, 0, none⟩ = 1/1000
    ∧ relevanceScore ['\t'] ⟨"d", ['\t'], none, 0, none⟩
        ≠ specRerankScoreWs ['\t'] ⟨"d", ['\t'], none, 0, none⟩ := by
  refine ⟨by with_unfolding_all decide, by with_unfolding_all decide,
    by with_unfolding_all decide⟩

/-- C2 (amended): the reranker's score equals
`0.5 * vector_similarity + 0.3 * keyword_overlap + 0.2 * length_score`
with `keyword_overlap = |distinct_chars(query) ∩ distinct_chars(content)|
/ |distinct_chars(query)|` clamped to `[0,1]`, *where distinct characters
are taken after removing ASCII space characters only* (not all
whitespace), the overlap being `0` when the query has no characters after
space removal; `length_score` is as the claim states. -/
theorem claim_C2 (query : List Char) (r : SearchResult) :
    relevanceScore query r = specRerankScoreSpace query r := by
  unfold relevanceScore specRerankScoreSpace
  have hkw : keywordOverlapScore query r.content
      = specKeywordOverlapSpace query r.content := by
    unfold keywordOverlapScore specKeywordOverlapSpace
    by_cases h : (query.filter (fun c => c ≠ ' ')).toFinset = ∅
    · rw [if_pos h, if_pos h]
    · rw [if_neg h, if_neg h, max_eq_right]
      exact le_min (by positivity) zero_le_one
  have hls : lengthScore r.content = specLengthScore r.content := rfl
  rw [hkw, hls]
  ring

/-- C5: every candidate's similarity is `1 - distance`, the threshold is
an inclusive lower bound applied as a filter: returned candidates satisfy
`similarity ≥ t`, candidates below `t` are absent from the result. -/
theorem claim_C5 (rows : List IndexRow) (t : ℚ) :
    (∀ r ∈ chromaSearch rows (some t), t ≤ r.score)
    ∧ (∀ r ∈ chromaSearch rows (some t),
        ∃ row ∈ rows, r = mkResult row ∧ r.score = 1 - row.distance)
    ∧ (∀ row ∈ rows, ¬ (1 - row.distance < t) →
        mkResult row ∈ chromaSearch rows (some t))
    ∧ (∀ row ∈ rows, 1 - row.distance < t →
        mkResult row ∉ chromaSearch rows (some t)) := by
  have hmem : ∀ r ∈ chromaSearch rows (some t),
      t ≤ r.score ∧ ∃ row ∈ rows, r = mkResult row := by
    induction rows with
    | nil =>
        intro r hr
        simp [chromaSearch] at hr
    | cons row rest ih =>
        intro r hr
        simp only [chromaSearch] at hr
        by_cases hd : 1 - row.distance < t
        · rw [if_pos hd] at hr
          obtain ⟨h1, row', hrow', h2⟩ := ih r hr
          exact ⟨h1, row', List.mem_cons_of_mem _ hrow', h2⟩
        · rw [if_neg hd] at hr
          rcases List.mem_cons.mp hr with rfl | hr'
          · refine ⟨?_, row, List.mem_cons_self _ _, rfl⟩
            have : (mkResult row).score = 1 - row.distance := rfl
            rw [this]
            exact not_lt.mp hd
          · obtain ⟨h1, row', hrow', h2⟩ := ih r hr'
            exact ⟨h1, row', List.mem_cons_of_mem _ hrow', h2⟩
  have hkept : ∀ row ∈ rows, ¬ (1 - row.distance < t) →
      mkResult row ∈ chromaSearch rows (some t) := by
    clear hmem
    induction rows with
    | nil =>
        intro row hrow
        exact absurd hrow (List.not_mem_nil _)
    | cons row0 rest ih =>
        intro row hrow hge
        simp only [chromaSearch]
        rcases List.mem_cons.mp hrow with rfl | hrow'
        · rw [if_neg hge]
          exact List.mem_cons_self _ _
        · by_cases hd : 1 - row0.distance < t
          · rw [if_pos hd]
            exact ih row hrow' hge
          · rw [if_neg hd]
            exact List.mem_cons_of_mem _ (ih row hrow' hge)
  refine ⟨fun r hr => (hmem r hr).1, ?_, hkept, ?_⟩
  · intro r hr
    obtain ⟨h1, row, hrow, h2⟩ := hmem r hr
    refine ⟨row, hrow, h2, ?_⟩
    rw [h2]
    rfl

  · intro row hrow hlt hin
    have h1 := (hmem (mkResult row) hin).1
    have h2 : (mkResult row).score = 1 - row.distance := rfl
    rw [h2] at h1
    exact absurd hlt (not_lt.mpr h1)

set_option maxRecDepth 4000 in
/-- C5 witness: two concrete rows at threshold 1/2; the near row (distance
1/4, similarity 3/4) is kept, the far one (distance 3/4, similarity 1/4)
is dropped. -/
theorem claim_C5_witness :
    (1/2 : ℚ) ≤ (mkResult ⟨"r1", ['x'], none, 1/4⟩).score
    ∧ mkResult ⟨"r1", ['x'], none, 1/4⟩
        ∈ chromaSearch [⟨"r1", ['x'], none, 1/4⟩, ⟨"r2", ['y'], none, 3/4⟩] (some (1/2))
    ∧ mkResult ⟨"r2", ['y'], none, 3/4⟩
        ∉ chromaSearch [⟨"r1", ['x'], none, 1/4⟩, ⟨"r2", ['y'], none, 3/4⟩] (some (1/2)) := by
  have h := claim_C5 [⟨"r1", ['x'], none, 1/4⟩, ⟨"r2", ['y'], none, 3/4⟩] (1/2)
  exact ⟨h.1 (mkResult ⟨"r1", ['x'], none, 1/4⟩) (by with_unfolding_all decide),
    h.2.2.1 ⟨"r1", ['x'], none, 1/4⟩ (by with_unfolding_all decide)
      (by with_unfolding_all decide),
    h.2.2.2 ⟨"r2", ['y'], none, 3/4⟩ (by with_unfolding_all decide)
      (by with_unfolding_all decide)⟩

/-- C3: with a non-empty query and positive limit, the pipeline search is
the plain store search at `k = limit` when re-ranking is off, and the
reranked store search at `k = 2 × limit`, truncated to `limit` by the
reranker itself, when re-ranking is on. -/
theorem claim_C3 (retrieve : Nat → List SearchResult) (query : List Char)
    (limit : Nat) (hq : pyStrip query ≠ []) (hl : 0 < limit)
    (hbound : ∀ k, (retrieve k).length ≤ k) :
    ragSearch retrieve false query limit = .ok (retrieve limit)
    ∧ ragSearch retrieve true query limit
        = .ok (rerank query (retrieve (2 * limit)) limit) := by
  constructor
  · simp only [ragSearch, ragSearchTr, if_neg hq]
    simp only [Bool.false_eq_true, false_and, if_false, if_neg]
    rw [List.take_of_length_le (hbound limit)]
  · simp only [ragSearch, ragSearchTr, if_neg hq]
    have hcomm : limit * 2 = 2 * limit := Nat.mul_comm limit 2
    by_cases hres : retrieve (limit * 2) = []
    · rw [← hcomm]
      simp only [if_true, hres, ne_eq, not_true_eq_false, if_false, true_and,
        List.take_nil]
      have hnil : rerank query [] limit = [] := by simp [rerank]
      rw [hnil]
    · simp only [if_true, ne_eq, true_and]
      rw [if_pos hres,
        List.take_of_length_le (rerank_length_le query (retrieve (limit * 2)) limit),
        hcomm]

/-- C3 witness with a one-hit store. -/
theorem claim_C3_witness :
    ragSearch (fun k => if k = 0 then [] else [⟨"d", ['x'], none, 1/2, none⟩])
        false ['q'] 1
      = .ok [⟨"d", ['x'], none, 1/2, none⟩]
    ∧ ragSearch (fun k => if k = 0 then [] else [⟨"d", ['x'], none, 1/2, none⟩])
        true ['q'] 1
      = .ok (rerank ['q'] [⟨"d", ['x'], none, 1/2, none⟩] 1) := by
  have h := claim_C3 (fun k => if k = 0 then [] else [⟨"d", ['x'], none, 1/2, none⟩])
    ['q'] 1 (by decide) (by decide)
    (by intro k; cases k <;> simp)
  exact ⟨h.1, h.2⟩

/-- C4 counterexample: `limit = 0` (so `limit ≤ 0`) is not rejected — the
call embeds the query, queries the index with `k = 0` and returns
normally, contradicting the claim that `limit <= 0` fails with
`InvalidArgument`. -/
theorem claim_C4_counterexample :
    ragSearchTr (fun _ => []) false ['q'] 0
      = (.ok [], [.encode ['q'], .indexQuery 0]) := rfl

/-- C4 (amended): `search` fails with `InvalidArgument` exactly when the
query is empty or whitespace-only, and then no embedding or index call is
made; a non-positive `limit` is *not* validated — the call proceeds
through embedding and index query and returns `ok`. -/
theorem claim_C4 (retrieve : Nat → List SearchResult) (rerankOn : Bool)
    (query : List Char) (limit : Nat) :
    (pyStrip query = [] →
      ragSearchTr retrieve rerankOn query limit = (.error "Query cannot be empty", []))
    ∧ (pyStrip query ≠ [] →
      ∃ res, ragSearchTr retrieve rerankOn query limit
        = (.ok res, [.encode query,
            .indexQuery (if rerankOn then limit * 2 else limit)])) := by
  constructor
  · intro h
    unfold ragSearchTr
    rw [if_pos h]
  · intro h
    unfold ragSearchTr
    rw [if_neg h]
    exact ⟨_, rfl⟩

/-- C4 witness: a whitespace-only query errors with no external call; a
valid query with `limit = 0` succeeds. -/
theorem claim_C4_witness :
    ragSearchTr (fun _ => []) false [' '] 5 = (.error "Query cannot be empty", [])
    ∧ ∃ res, ragSearchTr (fun _ => []) false ['q'] 0
        = (.ok res, [.encode ['q'], .indexQuery (if false then 0 * 2 else 0)]) :=
  ⟨(claim_C4 (fun _ => []) false [' '] 5).1 (by decide),
   (claim_C4 (fun _ => []) false ['q'] 0).2 (by decide)⟩

/-- C9 counterexample: the batch write accepts a whitespace-only document
— `add_documents` performs no per-item validation, embeds and stores the
batch, contradicting the claim that every content write rejects
empty/whitespace content. -/
theorem claim_C9_counterexample :
    pyStrip [' '] = []
    ∧ addDocuments [[' ']] = (.ok (), [.encode, .storeAdd]) :=
  ⟨rfl, rfl⟩

/-- C9 (amended): the single-document write `add_document` fails with
`InvalidArgument` on empty/whitespace-only content before any embedding
or store call; the batch write `add_documents` only short-circuits an
empty batch and performs *no* per-item content validation — any non-empty
batch, even one containing whitespace-only strings, is embedded and
stored. -/
theorem claim_C9 (content : List Char) (documents : List (List Char)) :
    (pyStrip content = [] →
      addDocument content = (.error "Document content cannot be empty", []))
    ∧ (pyStrip content ≠ [] →
      addDocument content = (.ok (), [.encode, .storeAdd]))
    ∧ (documents ≠ [] →
      addDocuments documents = (.ok (), [.encode, .storeAdd])) := by
  refine ⟨fun h => ?_, fun h => ?_, fun h => ?_⟩
  · unfold addDocument
    rw [if_pos h]
  · unfold addDocument
    rw [if_neg h]
  · unfold addDocuments
    rw [if_neg h]

/-- C9 witness. -/
theorem claim_C9_witness :
    addDocument [' '] = (.error "Document content cannot be empty", [])
    ∧ addDocument ['a'] = (.ok (), [.encode, .storeAdd])
    ∧ addDocuments [[' ']] = (.ok (), [.encode, .storeAdd]) :=
  ⟨(claim_C9 [' '] []).1 (by decide), (claim_C9 ['a'] []).2.1 (by decide),
   (claim_C9 ['a'] [[' ']]).2.2 (by decide)⟩

/-- C1 counterexample: the sentence strategy drops the delimiter `。`.
On input `"a。b"` the chunker returns the single chunk `"ab"`, whose
concatenation (the sentence separator is the empty string) misses the
non-whitespace character `。` of the normalized input: removing
separators/whitespace cannot recover it, so a character is silently
dropped. -/
theorem claim_C1_counterexample :
    chunkBySentences ['a', '。', 'b'] 300 = [['a', 'b']]
    ∧ stripAllWs (chunkBySentences ['a', '。', 'b'] 300).flatten
        ≠ stripAllWs ['a', '。', 'b'] := by
  constructor
  · decide
  · decide

/-- C1 (amended): concatenating all chunks and removing whitespace
reproduces, for the `sentences` strategy, the normalized input with
whitespace *and the sentence delimiters `。！？；` (which the splitter
consumes)* removed; for `fixed_size` it reproduces the input's
non-whitespace characters when `overlap = 0` (a positive overlap
duplicates characters); for `smart` it reproduces the input's
non-whitespace characters provided no line exceeds `1.5 × target`
(an over-long line is re-chunked by sentences, dropping its delimiters). -/
theorem claim_C1 (content : List Char) (target csize : Nat) :
    (stripAllWs (chunkBySentences content target).flatten
        = content.filter (fun c => !isPySpace c && !isSentSep c))
    ∧ (0 < csize →
        ∃ chunks, chunkByFixedSize content csize 0 = some chunks
          ∧ stripAllWs chunks.flatten = stripAllWs content)
    ∧ ((∀ l ∈ linesOf content, 2 * l.length ≤ 3 * target) →
        stripAllWs (chunkSmart content target).flatten = stripAllWs content) := by
  refine ⟨chunkBySentences_roundtrip content target, ?_,
    chunkSmart_roundtrip content target⟩
  intro hc
  have hsome := fixedGo_isSome (collapseWs (pyStrip content)) csize 0 hc
    (collapseWs (pyStrip content)).length 0 (le_refl 0)
    (by
      have h1 : (1 : Int) ≤ (csize : Int) - 0 := by
        omega
      calc ((collapseWs (pyStrip content)).length : Int)
          = (collapseWs (pyStrip content)).length * 1 := by ring
        _ ≤ (collapseWs (pyStrip content)).length * ((csize : Int) - 0) :=
            mul_le_mul_of_nonneg_left h1 (Int.natCast_nonneg _)
        _ = 0 + (collapseWs (pyStrip content)).length * ((csize : Int) - 0) := by ring)
  obtain ⟨chunks, hchunks⟩ := Option.isSome_iff_exists.mp hsome
  refine ⟨chunks, hchunks, ?_⟩
  have hflat := fixedGo_strip_flatten (collapseWs (pyStrip content)) csize
    ((collapseWs (pyStrip content)).length + 1) 0 chunks
    (by rw [Nat.cast_zero]; exact hchunks)
  rw [List.drop_zero] at hflat
  rw [hflat, stripAllWs_collapseWs, stripAllWs_pyStrip]

/-- C1 witness at a concrete input exercising all three strategies. -/
theorem claim_C1_witness :
    (stripAllWs (chunkBySentences ['a', 'b', ' ', 'c'] 3).flatten
        = ['a', 'b', ' ', 'c'].filter (fun c => !isPySpace c && !isSentSep c))
    ∧ (∃ chunks, chunkByFixedSize ['a', 'b', ' ', 'c'] 2 0 = some chunks
        ∧ stripAllWs chunks.flatten = stripAllWs ['a', 'b', ' ', 'c'])
    ∧ stripAllWs (chunkSmart ['a', 'b', ' ', 'c'] 3).flatten
        = stripAllWs ['a', 'b', ' ', 'c'] := by
  obtain ⟨h1, h2, h3⟩ := claim_C1 ['a', 'b', ' ', 'c'] 3 2
  exact ⟨h1, h2 (by decide), h3 (by decide)⟩

/-- C6 counterexample: target 100, a 10-character narrative accumulator
(10 ≤ 30% of the target) followed by a 95-character quoted dialogue line.
Adding the line overflows the target, the line is short and contains a
quotation mark, yet the accumulator is *not* flushed: the dialogue line is
glued to the narrative in one chunk, contradicting "regardless of how full
the accumulator currently is". -/
theorem claim_C6_counterexample :
    chunkSmart (List.replicate 10 'a' ++ '\n' :: '"' :: List.replicate 94 'b') 100
      = [List.replicate 10 'a' ++ '\n' :: '"' :: List.replicate 94 'b']
    ∧ [List.replicate 10 'a' ++ '\n' :: '"' :: List.replicate 94 'b']
      ≠ [List.replicate 10 'a', '"' :: List.replicate 94 'b'] := by
  constructor
  · decide
  · decide

/-- C6 (amended): for a line whose addition would overflow the target,
which is shorter than 100 characters, contains a quotation mark, and is
not over the long-line limit, the accumulator is flushed and a new chunk
started with that line alone *exactly when the accumulator holds more than
30% of the target* (the extra 50% condition of the dialogue branch is
immaterial, because the general flush branch behaves identically);
otherwise the line is appended to the accumulator. -/
theorem claim_C6 (target : Nat) (line : List Char) (rest cur : List (List Char))
    (size : Nat) (hcur : cur ≠ []) (hover : size + line.length > target)
    (hnotlong : ¬ 2 * line.length > 3 * target)
    (hshort : line.length < 100) (hq : containsQuote line = true) :
    smartGo target (line :: rest) cur size
      = if 10 * size > 3 * target
        then joinNL cur :: smartGo target rest [line] line.length
        else smartGo target rest (cur ++ [line]) (size + line.length) := by
  rw [smartGo, if_neg hnotlong, if_pos ⟨hover, hcur⟩]
  by_cases hhalf : 2 * size > target
  · rw [if_pos ⟨hshort, hq, hhalf⟩, if_pos (by omega)]
  · rw [if_neg (fun hcontr => hhalf hcontr.2.2)]

/-- C6 witness: a dialogue line over a more-than-30%-full accumulator. -/
theorem claim_C6_witness :
    smartGo 10 [['"', 'x', 'y', 'z', 'w']] [['c', 'c', 'c', 'c', 'c', 'c']] 6
      = if 10 * 6 > 3 * 10
        then joinNL [['c', 'c', 'c', 'c', 'c', 'c']]
            :: smartGo 10 [] [['"', 'x', 'y', 'z', 'w']] ['"', 'x', 'y', 'z', 'w'].length
        else smartGo 10 [] ([['c', 'c', 'c', 'c', 'c', 'c']] ++ [['"', 'x', 'y', 'z', 'w']])
            (6 + ['"', 'x', 'y', 'z', 'w'].length) :=
  claim_C6 10 ['"', 'x', 'y', 'z', 'w'] [] [['c', 'c', 'c', 'c', 'c', 'c']] 6
    (by decide) (by decide) (by decide) (by decide) (by decide)

/-- C7 counterexample: `target_size = 0` (hence `<= 0`) is not rejected:
the sentence strategy happily chunks, so the claimed `InvalidArgument` on
non-positive `target_size` never happens. -/
theorem claim_C7_counterexample :
    chunkDocument "sentences" ['a'] 0 0 = .ok (some [['a']]) := by
  rfl

/-- C7 (amended): the chunker fails with `InvalidArgument` exactly when
the strategy is not one of the three recognized values (and then no chunks
are produced); `target_size <= 0` is *not* validated — every recognized
strategy returns `ok` for any `target_size`, the `fixed_size` loop merely
failing to terminate when its stride is non-positive. -/
theorem claim_C7 (strategy : String) (content : List Char) (csize overlap : Nat) :
    (strategy ≠ "sentences" → strategy ≠ "fixed_size" → strategy ≠ "smart" →
      chunkDocument strategy content csize overlap
        = .error ("Unknown strategy: " ++ strategy))
    ∧ (strategy = "sentences" ∨ strategy = "fixed_size" ∨ strategy = "smart" →
      ∃ v, chunkDocument strategy content csize overlap = .ok v) := by
  constructor
  · intro h1 h2 h3
    unfold chunkDocument
    rw [if_neg h1, if_neg h2, if_neg h3]
  · rintro (h | h | h) <;> subst h <;> unfold chunkDocument <;> simp

/-- C7 witness: an unknown strategy errors; a recognized one returns. -/
theorem claim_C7_witness :
    chunkDocument "bogus" ['a'] 3 0 = .error ("Unknown strategy: " ++ "bogus")
    ∧ ∃ v, chunkDocument "sentences" ['a'] 3 0 = .ok v :=
  ⟨(claim_C7 "bogus" ['a'] 3 0).1 (by decide) (by decide) (by decide),
   (claim_C7 "sentences" ['a'] 3 0).2 (Or.inl rfl)⟩

/-- C10: the fixed-size loop terminates for every input when
`overlap < chunk_size` (the stride is positive, and fuel `length + 1`
suffices); when `overlap >= chunk_size` the window start never advances,
and if the whitespace-collapsed content is longer than `chunk_size` the
loop never finishes, for any amount of fuel. -/
theorem claim_C10 (content : List Char) (csize overlap : Nat) :
    (overlap < csize →
      ∃ fuel, (fixedGo (collapseWs (pyStrip content)) csize overlap fuel 0).isSome)
    ∧ (csize ≤ overlap →
        (∀ start : Int, nextStart csize overlap start ≤ start)
        ∧ (csize < (collapseWs (pyStrip content)).length →
            ∀ fuel, fixedGo (collapseWs (pyStrip content)) csize overlap fuel 0 = none)) := by
  constructor
  · intro h
    refine ⟨(collapseWs (pyStrip content)).length + 1, ?_⟩
    apply fixedGo_isSome (collapseWs (pyStrip content)) csize overlap h
      (collapseWs (pyStrip content)).length 0 (le_refl 0)
    have h1 : (1 : Int) ≤ (csize : Int) - overlap := by
      omega
    calc ((collapseWs (pyStrip content)).length : Int)
        = (collapseWs (pyStrip content)).length * 1 := by ring
      _ ≤ (collapseWs (pyStrip content)).length * ((csize : Int) - overlap) :=
          mul_le_mul_of_nonneg_left h1 (Int.natCast_nonneg _)
      _ = 0 + (collapseWs (pyStrip content)).length * ((csize : Int) - overlap) := by
          ring
  · intro h
    refine ⟨nextStart_no_advance csize overlap h, fun hlen fuel => ?_⟩
    exact fixedGo_none (collapseWs (pyStrip content)) csize overlap h hlen fuel 0
      (le_refl 0)

/-- C10 witness: termination at `chunk_size 2, overlap 1`; non-advancing
start and non-termination at `chunk_size 1, overlap 2` on `"abc"`. -/
theorem claim_C10_witness :
    (∃ fuel, (fixedGo (collapseWs (pyStrip ['a', 'b', ' ', 'c'])) 2 1 fuel 0).isSome)
    ∧ (∀ start : Int, nextStart 1 2 start ≤ start)
    ∧ (∀ fuel, fixedGo (collapseWs (pyStrip ['a', 'b', 'c'])) 1 2 fuel 0 = none) := by
  refine ⟨(claim_C10 ['a', 'b', ' ', 'c'] 2 1).1 (by decide), ?_, ?_⟩
  · exact ((claim_C10 ['a', 'b', 'c'] 1 2).2 (by decide)).1
  · exact ((claim_C10 ['a', 'b', 'c'] 1 2).2 (by decide)).2 (by decide)
